import Mathlib

/-!
Verification of the hash-chained voting ledger.

The development shallowly embeds the ledger core of the repository:
block construction with proof-of-work (`createBlock`), chain validation
(`isChainValid`), and the voting-service operations of the server
(`castVote`, `addCandidate`, `removeCandidate`, `toggleVoting`), plus the
client-side `BlockchainService` variants (`addVote`, `createGenesisBlock`).

The SHA-256 hash is treated as an abstract parameter `H : String → String`;
every operation receives the exact string the source feeds to the hash,
namely `index + previousHash + timestamp + JSON.stringify(data) + nonce`
built by JavaScript string concatenation.  `JSON.stringify` of the payload
object is modelled by `jsonStringifyData`, including the string escaping of
quote, backslash, newline, carriage return and tab.  The unbounded mining
loop (`while (true) ... nonce++`) is modelled by `Nat.find` on a proof that
some nonce satisfies the difficulty predicate: the loop's result, when it
terminates, is exactly the least such nonce.  `Date.now()` values are
threaded as explicit numeric arguments.
-/

/-- Payload of a block: `types.ts` `BlockData`.  The genesis payload of
`server.js` carries no `timestamp` key, hence the `Option`. -/
structure BlockData where
  voterId : String
  candidateId : String
  timestamp : Option Nat
deriving DecidableEq, Repr

/-- A ledger block: `types.ts` `Block`. -/
structure Block where
  index : Nat
  timestamp : Nat
  data : BlockData
  previousHash : String
  hash : String
  nonce : Nat
deriving DecidableEq, Repr

/-- A registered candidate: `types.ts` `Candidate`. -/
structure Candidate where
  id : String
  name : String
  department : String
  manifesto : String
  voteCount : Nat
deriving DecidableEq, Repr

/-- The request body of the add-candidate route (`voteCount` is set by the
server). -/
structure CandidateInput where
  id : String
  name : String
  department : String
  manifesto : String
deriving DecidableEq, Repr

/-- The server's in-memory state: the module-level `chain`, `candidates`
and `votingActive` variables of `server.js`. -/
structure ServerState where
  chain : List Block
  candidates : List Candidate
  votingActive : Bool
deriving DecidableEq, Repr

/-- JSON escaping of one character, as performed by `JSON.stringify` on the
characters that actually occur in this application's payloads. -/
def escChar (c : Char) : List Char :=
  if c = '"' then ['\\', '"']
  else if c = '\\' then ['\\', '\\']
  else if c = '\n' then ['\\', 'n']
  else if c = '\r' then ['\\', 'r']
  else if c = '\t' then ['\\', 't']
  else [c]

/-- JSON escaping of a character list. -/
def escList (l : List Char) : List Char := l.flatMap escChar

/-- JSON escaping of a string value. -/
def escapeJson (s : String) : String := ⟨escList s.data⟩

/-- `JSON.stringify` of a `BlockData` object, with keys in insertion order
`voterId`, `candidateId`, `timestamp` as in the source's object literals. -/
def jsonStringifyData (d : BlockData) : String :=
  "\x7b\"voterId\":\"" ++ escapeJson d.voterId ++ "\",\"candidateId\":\"" ++
    escapeJson d.candidateId ++
    (match d.timestamp with
     | none => "\"\x7d"
     | some t => "\",\"timestamp\":" ++ Nat.repr t ++ "\x7d")

/-- The string hashed for a block:
`index + previousHash + timestamp + JSON.stringify(data) + nonce`
(JavaScript number-to-string coercion followed by concatenation). -/
def blockInput (index : Nat) (previousHash : String) (timestamp : Nat)
    (data : BlockData) (nonce : Nat) : String :=
  Nat.repr index ++ previousHash ++ Nat.repr timestamp ++
    jsonStringifyData data ++ Nat.repr nonce

/-- `const difficulty = 2` in both mining implementations. -/
def difficulty : Nat := 2

/-- `Array(difficulty + 1).join("0")`, the required hash target. -/
def powTarget : String := ⟨List.replicate difficulty '0'⟩

/-- The loop-exit test of the mining loop:
`hash.substring(0, difficulty) === Array(difficulty + 1).join("0")`. -/
def powOkB (H : String → String) (index : Nat) (previousHash : String)
    (timestamp : Nat) (data : BlockData) (nonce : Nat) : Bool :=
  (H (blockInput index previousHash timestamp data nonce)).take difficulty == powTarget

/-- Termination of the mining search for every input, the (probabilistic)
assumption under which the source's `while (true)` loop returns. -/
def MiningTerminates (H : String → String) : Prop :=
  ∀ index previousHash timestamp data,
    ∃ n, powOkB H index previousHash timestamp data n = true

/-- `createBlock(data, previousHash)` of `server.js` (identical to
`BlockchainService.createBlock`): `index` is the chain length and
`timestamp` is captured once at entry; the loop starts at `nonce = 0` and
increments until the difficulty test passes, so the returned nonce is the
least satisfying one, modelled by `Nat.find` on the termination witness. -/
def createBlock (H : String → String) (len timestamp : Nat) (data : BlockData)
    (previousHash : String)
    (hex : ∃ n, powOkB H len previousHash timestamp data n = true) : Block :=
  { index := len
    timestamp := timestamp
    data := data
    previousHash := previousHash
    hash := H (blockInput len previousHash timestamp data (Nat.find hex))
    nonce := Nat.find hex }

/-- The string re-hashed by `isChainValid` for a stored block. -/
def recomputeInput (b : Block) : String :=
  blockInput b.index b.previousHash b.timestamp b.data b.nonce

/-- The loop body of `isChainValid`, carrying the previous block: first the
linkage test, then the hash-reproducibility test, then the rest of the
chain. -/
def validFrom (H : String → String) : Block → List Block → Bool
  | _, [] => true
  | prev, cur :: rest =>
    if cur.previousHash ≠ prev.hash then false
    else if H (recomputeInput cur) ≠ cur.hash then false
    else validFrom H cur rest

/-- `BlockchainService.isChainValid`: iterates `i = 1 .. length - 1` over
consecutive pairs; vacuously true for chains shorter than two blocks. -/
def isChainValid (H : String → String) : List Block → Bool
  | [] => true
  | b :: rest => validFrom H b rest

/-- `chain.slice(1).some(block => block.data.voterId === voterHash)`. -/
def hasVotedB (chain : List Block) (digest : String) : Bool :=
  (chain.drop 1).any fun b => b.data.voterId == digest

/-- `email.toLowerCase()`: lowercase every character. -/
def toLowerStr (s : String) : String := ⟨s.data.map Char.toLower⟩

/-- `trim()`: strip leading and trailing whitespace. -/
def trimList (l : List Char) : List Char :=
  ((l.dropWhile Char.isWhitespace).reverse.dropWhile Char.isWhitespace).reverse

/-- `String.prototype.trim`. -/
def trimStr (s : String) : String := ⟨trimList s.data⟩

/-- The voter digest of the server's vote route:
`sha256(email.toLowerCase().trim())`. -/
def anonymize (H : String → String) (rawIdentity : String) : String :=
  H (trimStr (toLowerStr rawIdentity))

/-- The voter digest of `BlockchainService.addVote`:
`sha256(voterEmail)` — the raw email, with no normalization. -/
def addVoteDigest (H : String → String) (voterEmail : String) : String :=
  H voterEmail

/-- Error outcomes of the vote route. -/
inductive VoteError where
  | PollClosedError
  | DuplicateVoteError
deriving DecidableEq, Repr

/-- The `/api/vote` handler of `server.js`.  Returns the state after the
call together with the outcome; `none` models the crash that would occur
on an empty chain (unreachable, since the server always holds genesis).
`tdata` and `tblock` are the two `Date.now()` reads (payload timestamp and
mining timestamp). -/
def castVote (H : String → String) (hm : MiningTerminates H) (s : ServerState)
    (email candidateId : String) (tdata tblock : Nat) :
    Option (ServerState × Except VoteError Block) :=
  if s.votingActive = false then some (s, Except.error VoteError.PollClosedError)
  else
    let voterHash := anonymize H email
    if hasVotedB s.chain voterHash then some (s, Except.error VoteError.DuplicateVoteError)
    else
      match s.chain.getLast? with
      | none => none
      | some previousBlock =>
        let newBlock := createBlock H s.chain.length tblock
          { voterId := voterHash, candidateId := candidateId, timestamp := some tdata }
          previousBlock.hash
          (hm s.chain.length previousBlock.hash tblock
            { voterId := voterHash, candidateId := candidateId, timestamp := some tdata })
        some ({ s with
            chain := s.chain ++ [newBlock]
            candidates := s.candidates.map fun c =>
              if c.id == candidateId then { c with voteCount := c.voteCount + 1 } else c },
          Except.ok newBlock)

/-- The add-candidate route: rejected when the id is missing/empty (a falsy
`candidate.id`), otherwise pushed with `voteCount: 0`. -/
def addCandidate (s : ServerState) (c : CandidateInput) : ServerState × Bool :=
  if c.id = "" then (s, false)
  else
    ({ s with candidates := s.candidates ++
        [{ id := c.id, name := c.name, department := c.department,
           manifesto := c.manifesto, voteCount := 0 }] }, true)

/-- The remove-candidate route: `candidates.filter(c => c.id !== id)`. -/
def removeCandidate (s : ServerState) (id : String) : ServerState :=
  { s with candidates := s.candidates.filter fun c => c.id != id }

/-- The admin toggle route: `votingActive = !votingActive`. -/
def toggleVoting (s : ServerState) : ServerState :=
  { s with votingActive := !s.votingActive }

/-- The genesis payload pushed by `server.js` at startup (no timestamp
key). -/
def serverGenesisData : BlockData :=
  { voterId := "GENESIS", candidateId := "GENESIS", timestamp := none }

/-- Server startup: `chain = []` and then
`chain.push(createBlock({voterId:"GENESIS",candidateId:"GENESIS"}, "0"))`,
with `candidates = []` and `votingActive = false`. -/
def serverInit (H : String → String) (hm : MiningTerminates H) (t : Nat) : ServerState :=
  { chain := [createBlock H 0 t serverGenesisData "0" (hm 0 "0" t serverGenesisData)]
    candidates := []
    votingActive := false }

/-- `BlockchainService.createGenesisBlock`: mines a block with the GENESIS
payload (including a timestamp key) and `previousHash = "0"`, and pushes it
onto whatever chain the instance currently holds. -/
def createGenesisBlock (H : String → String) (hm : MiningTerminates H)
    (chain : List Block) (t : Nat) : List Block × Block :=
  let genesisBlock := createBlock H chain.length t
    { voterId := "GENESIS", candidateId := "GENESIS", timestamp := some t } "0"
    (hm chain.length "0" t
      { voterId := "GENESIS", candidateId := "GENESIS", timestamp := some t })
  (chain ++ [genesisBlock], genesisBlock)

/-- `BlockchainService.addVote`: fetches the tail block, hashes the raw
email, mines and appends; `none` models the crash on an empty chain. -/
def addVote (H : String → String) (hm : MiningTerminates H) (chain : List Block)
    (voterEmail candidateId : String) (tdata tblock : Nat) :
    Option (List Block × Block) :=
  match chain.getLast? with
  | none => none
  | some previousBlock =>
    let voterHash := addVoteDigest H voterEmail
    let newBlock := createBlock H chain.length tblock
      { voterId := voterHash, candidateId := candidateId, timestamp := some tdata }
      previousBlock.hash
      (hm chain.length previousBlock.hash tblock
        { voterId := voterHash, candidateId := candidateId, timestamp := some tdata })
    some (chain ++ [newBlock], newBlock)

/-- The vote count of a candidate id obtained by replaying the chain
(genesis excluded), the quantity `voteCount` is supposed to cache. -/
def tallyOf (chain : List Block) (candidateId : String) : Nat :=
  ((chain.drop 1).filter fun b => b.data.candidateId == candidateId).length

/-- The tally invariant: every registered candidate's cached `voteCount`
agrees with the chain replay. -/
def TallyInv (s : ServerState) : Prop :=
  ∀ c ∈ s.candidates, c.voteCount = tallyOf s.chain c.id

instance (s : ServerState) : Decidable (TallyInv s) := by
  unfold TallyInv
  infer_instance

/-- States reachable by the Ledger Engine / Voting Service of `server.js`:
startup followed by any sequence of toggle, add/remove candidate and vote
requests. -/
inductive Reachable (H : String → String) (hm : MiningTerminates H) : ServerState → Prop where
  | init (t : Nat) : Reachable H hm (serverInit H hm t)
  | toggle {s : ServerState} : Reachable H hm s → Reachable H hm (toggleVoting s)
  | addCand {s : ServerState} (c : CandidateInput) :
      Reachable H hm s → Reachable H hm (addCandidate s c).1
  | removeCand {s : ServerState} (id : String) :
      Reachable H hm s → Reachable H hm (removeCandidate s id)
  | vote {s s' : ServerState} {r : Except VoteError Block}
      (email candidateId : String) (tdata tblock : Nat) :
      Reachable H hm s →
      castVote H hm s email candidateId tdata tblock = some (s', r) →
      Reachable H hm s'

/-- A toy hash constantly `"00"`: meets the difficulty target at once, used
to exercise the operations on concrete inputs. -/
def Hc : String → String := fun _ => "00"

/-- A toy injective hash: `"00"` followed by the input, so it meets the
difficulty target at nonce `0` while keeping distinct inputs distinct. -/
def Hip : String → String := fun s => "00" ++ s

/-- The identity as a hash function: injective, used to build concrete
chains that validate (validation never checks the difficulty target). -/
def Hid : String → String := fun s => s

/-- Mining witness for the constant hash `Hc`. -/
def hmC : MiningTerminates Hc := fun _ _ _ _ => ⟨0, rfl⟩

/-- Mining witness for the injective toy hash `Hip`. -/
def hmIp : MiningTerminates Hip := fun i p t d => ⟨0, by
  simp only [powOkB, Hip, difficulty, powTarget, beq_iff_eq]
  apply String.ext
  simp [String.data_take, String.data_append, List.replicate]⟩

/-! ### Injectivity of the decimal representation used in hash inputs -/

/-- Decimal digit characters of a natural number, most significant first:
the list underlying `Nat.repr`. -/
def repChars (n : Nat) : List Char :=
  if n < 10 then [Nat.digitChar n]
  else repChars (n / 10) ++ [Nat.digitChar (n % 10)]
decreasing_by exact Nat.div_lt_self (by omega) (by omega)

theorem repChars_ne_nil (n : Nat) : repChars n ≠ [] := by
  rw [repChars]
  split <;> simp

theorem toDigitsCore_eq_repChars :
    ∀ (fuel n : Nat) (ds : List Char), n < 10 ^ fuel → 0 < fuel →
      Nat.toDigitsCore 10 fuel n ds = repChars n ++ ds := by
  intro fuel
  induction fuel with
  | zero => omega
  | succ f ih =>
    intro n ds hlt _
    by_cases hdiv : n / 10 = 0
    · have hn : n < 10 := by omega
      simp only [Nat.toDigitsCore, hdiv, if_pos rfl, if_true]
      rw [repChars, if_pos hn, Nat.mod_eq_of_lt hn]
      simp
    · have h10 : 10 ≤ n := by omega
      have hf : 0 < f := by
        rcases Nat.eq_zero_or_pos f with h0 | h0
        · subst h0; simp at hlt; omega
        · exact h0
      have hlt' : n / 10 < 10 ^ f := by
        rw [pow_succ] at hlt
        omega
      simp only [Nat.toDigitsCore, hdiv, if_false, if_neg hdiv]
      rw [ih (n / 10) (Nat.digitChar (n % 10) :: ds) hlt' hf]
      conv_rhs => rw [repChars, if_neg (by omega : ¬ n < 10)]
      simp

theorem natRepr_eq_repChars (n : Nat) : Nat.repr n = ⟨repChars n⟩ := by
  have hp : n < 10 ^ (n + 1) :=
    lt_of_lt_of_le (Nat.lt_pow_self (by omega) n) (Nat.pow_le_pow_right (by omega) (Nat.le_succ n))
  show (Nat.toDigits 10 n).asString = _
  rw [Nat.toDigits, toDigitsCore_eq_repChars (n + 1) n [] hp (Nat.succ_pos n)]
  simp [List.asString]

theorem digitChar_inj_lt10 {m n : Nat} (hm : m < 10) (hn : n < 10)
    (h : Nat.digitChar m = Nat.digitChar n) : m = n := by
  have key : ∀ a : Fin 10, ∀ b : Fin 10, Nat.digitChar a.val = Nat.digitChar b.val → a = b := by
    decide
  have := key ⟨m, hm⟩ ⟨n, hn⟩ h
  exact congrArg Fin.val this

theorem repChars_lt {n : Nat} (h : n < 10) : repChars n = [Nat.digitChar n] := by
  rw [repChars, if_pos h]

theorem repChars_ge {n : Nat} (h : ¬ n < 10) :
    repChars n = repChars (n / 10) ++ [Nat.digitChar (n % 10)] := by
  conv_lhs => rw [repChars, if_neg h]

theorem repChars_injective : ∀ m n : Nat, repChars m = repChars n → m = n := by
  intro m
  induction m using Nat.strong_induction_on with
  | _ m ih =>
    intro n h
    by_cases hm : m < 10 <;> by_cases hn : n < 10
    · rw [repChars_lt hm, repChars_lt hn] at h
      exact digitChar_inj_lt10 hm hn (List.singleton_injective h)
    · rw [repChars_lt hm, repChars_ge hn] at h
      have hlen := congrArg List.length h
      simp at hlen
      exact absurd hlen (repChars_ne_nil (n / 10))
    · rw [repChars_ge hm, repChars_lt hn] at h
      have hlen := congrArg List.length h
      simp at hlen
      exact absurd hlen (repChars_ne_nil (m / 10))
    · rw [repChars_ge hm, repChars_ge hn] at h
      obtain ⟨h1, h2⟩ := List.append_inj' h (by simp)
      have hdiv : m / 10 = n / 10 :=
        ih (m / 10) (Nat.div_lt_self (by omega) (by omega)) (n / 10) h1
      have hmod : m % 10 = n % 10 :=
        digitChar_inj_lt10 (Nat.mod_lt m (by omega)) (Nat.mod_lt n (by omega))
          (List.singleton_injective h2)
      omega

/-- The decimal string used by JavaScript number-to-string coercion is
injective: distinct numbers feed distinct text to the hash. -/
theorem natRepr_injective {m n : Nat} (h : Nat.repr m = Nat.repr n) : m = n := by
  rw [natRepr_eq_repChars, natRepr_eq_repChars] at h
  exact repChars_injective m n (congrArg String.data h)

/-! ### Injectivity of the JSON payload serialization -/

/-- Inverse of `escChar` on escape codes. -/
def unescChar (e : Char) : Char :=
  if e = '"' then '"'
  else if e = '\\' then '\\'
  else if e = 'n' then '\n'
  else if e = 'r' then '\r'
  else if e = 't' then '\t'
  else e

/-- Reads an escaped string up to its closing unescaped quote, returning
the decoded characters and the remainder. -/
def readEsc : List Char → Option (List Char × List Char)
  | [] => none
  | c :: rest =>
    if c = '\\' then
      match rest with
      | [] => none
      | e :: rest2 =>
        match readEsc rest2 with
        | some (acc, rem) => some (unescChar e :: acc, rem)
        | none => none
    else if c = '"' then some ([], rest)
    else
      match readEsc rest with
      | some (acc, rem) => some (c :: acc, rem)
      | none => none

theorem readEsc_quote (rest : List Char) : readEsc ('"' :: rest) = some ([], rest) := by
  cases rest <;> simp [readEsc]

theorem readEsc_esc (e : Char) (rest : List Char) :
    readEsc ('\\' :: e :: rest) =
      match readEsc rest with
      | some (acc, rem) => some (unescChar e :: acc, rem)
      | none => none := by
  simp [readEsc]

theorem readEsc_other {c : Char} (h1 : c ≠ '\\') (h2 : c ≠ '"') (rest : List Char) :
    readEsc (c :: rest) =
      match readEsc rest with
      | some (acc, rem) => some (c :: acc, rem)
      | none => none := by
  cases rest with
  | nil => rw [readEsc.eq_2, if_neg h1, if_neg h2]
  | cons a l => rw [readEsc.eq_3, if_neg h1, if_neg h2]

/-- Round trip: decoding an escaped string terminated by an unescaped
quote recovers the original characters and the remainder. -/
theorem readEsc_escList (l rest : List Char) :
    readEsc (escList l ++ '"' :: rest) = some (l, rest) := by
  induction l with
  | nil => simpa [escList] using readEsc_quote rest
  | cons c l ih =>
    rw [show escList (c :: l) = escChar c ++ escList l from by simp [escList],
      List.append_assoc]
    by_cases h1 : c = '"'
    · subst h1
      rw [show escChar '"' = ['\\', '"'] from rfl, List.cons_append, List.cons_append,
        List.nil_append, readEsc_esc, ih]
      rfl
    · by_cases h2 : c = '\\'
      · subst h2
        rw [show escChar '\\' = ['\\', '\\'] from rfl, List.cons_append, List.cons_append,
          List.nil_append, readEsc_esc, ih]
        rfl
      · by_cases h3 : c = '\n'
        · subst h3
          rw [show escChar '\n' = ['\\', 'n'] from rfl, List.cons_append, List.cons_append,
            List.nil_append, readEsc_esc, ih]
          rfl
        · by_cases h4 : c = '\r'
          · subst h4
            rw [show escChar '\r' = ['\\', 'r'] from rfl, List.cons_append, List.cons_append,
              List.nil_append, readEsc_esc, ih]
            rfl
          · by_cases h5 : c = '\t'
            · subst h5
              rw [show escChar '\t' = ['\\', 't'] from rfl, List.cons_append, List.cons_append,
                List.nil_append, readEsc_esc, ih]
              rfl
            · rw [show escChar c = [c] from by simp [escChar, h1, h2, h3, h4, h5],
                List.cons_append, List.nil_append, readEsc_other h2 h1, ih]

/-- The serialized payload from the candidateId's closing quote onwards. -/
def tsChars : Option Nat → List Char
  | none => "\"\x7d".data
  | some t => "\",\"timestamp\":".data ++ ((Nat.repr t).data ++ "\x7d".data)

/-- The characters of `jsonStringifyData`, associated to expose the quote
markers the decoder keys on. -/
def jsonDataChars (d : BlockData) : List Char :=
  "\x7b\"voterId\":\"".data ++
    (escList d.voterId.data ++
      ("\",\"candidateId\":\"".data ++
        (escList d.candidateId.data ++ tsChars d.timestamp)))

theorem jsonStringifyData_data (d : BlockData) :
    (jsonStringifyData d).data = jsonDataChars d := by
  obtain ⟨v, c, ts⟩ := d
  cases ts <;>
    simp [jsonStringifyData, jsonDataChars, tsChars, escapeJson, String.data_append,
      List.append_assoc]

/-- `tsChars` with its leading quote split off. -/
def tsTail : Option Nat → List Char
  | none => ['\x7d']
  | some t => ",\"timestamp\":".data ++ ((Nat.repr t).data ++ ['\x7d'])

theorem tsChars_eq_cons (ts : Option Nat) : tsChars ts = '"' :: tsTail ts := by
  cases ts with
  | none => decide
  | some t =>
    show "\",\"timestamp\":".data ++ ((Nat.repr t).data ++ "\x7d".data) = _
    rw [show "\",\"timestamp\":".data = '"' :: ",\"timestamp\":".data from by decide,
      show "\x7d".data = ['\x7d'] from by decide]
    simp [tsTail]

theorem tsTail_injective : ∀ {t1 t2 : Option Nat}, tsTail t1 = tsTail t2 → t1 = t2 := by
  intro t1 t2 h
  match t1, t2 with
  | none, none => rfl
  | none, some t =>
    simp only [tsTail] at h
    rw [List.cons_append] at h
    injection h with h1 _
    exact absurd h1 (by decide)
  | some t, none =>
    simp only [tsTail] at h
    rw [List.cons_append] at h
    injection h with h1 _
    exact absurd h1 (by decide)
  | some t1, some t2 =>
    simp only [tsTail] at h
    have h1 := List.append_cancel_left h
    obtain ⟨h2, -⟩ := List.append_inj' h1 (by simp)
    exact congrArg some (natRepr_injective (String.ext h2))

theorem jsonDataChars_injective {d1 d2 : BlockData}
    (h : jsonDataChars d1 = jsonDataChars d2) : d1 = d2 := by
  obtain ⟨v1, c1, t1⟩ := d1
  obtain ⟨v2, c2, t2⟩ := d2
  simp only [jsonDataChars, tsChars_eq_cons] at h
  simp only [List.cons_append, List.nil_append] at h
  simp only [List.cons.injEq, eq_self_iff_true, true_and] at h
  have h2 := congrArg readEsc h
  rw [readEsc_escList, readEsc_escList] at h2
  simp only [Option.some.injEq, Prod.mk.injEq] at h2
  obtain ⟨hv, hY⟩ := h2
  simp only [List.cons.injEq, eq_self_iff_true, true_and] at hY
  have h4 := congrArg readEsc hY
  rw [readEsc_escList, readEsc_escList] at h4
  simp only [Option.some.injEq, Prod.mk.injEq] at h4
  obtain ⟨hc, hts⟩ := h4
  simp only [BlockData.mk.injEq]
  exact ⟨String.ext hv, String.ext hc, tsTail_injective hts⟩

/-- `JSON.stringify` is injective on payloads: distinct payload objects
serialize to distinct strings. -/
theorem jsonStringifyData_injective {d1 d2 : BlockData}
    (h : jsonStringifyData d1 = jsonStringifyData d2) : d1 = d2 :=
  jsonDataChars_injective
    (by rw [← jsonStringifyData_data, ← jsonStringifyData_data, h])

/-! ### Single-field sensitivity of the hash input -/

theorem blockInput_index_inj {i i' t n : Nat} {p : String} {d : BlockData}
    (h : blockInput i p t d n = blockInput i' p t d n) : i = i' := by
  have hd := congrArg String.data h
  simp only [blockInput, String.data_append, List.append_assoc] at hd
  exact natRepr_injective (String.ext (List.append_cancel_right hd))

theorem blockInput_timestamp_inj {i t t' n : Nat} {p : String} {d : BlockData}
    (h : blockInput i p t d n = blockInput i p t' d n) : t = t' := by
  have hd := congrArg String.data h
  simp only [blockInput, String.data_append, List.append_assoc] at hd
  have h1 := List.append_cancel_left (List.append_cancel_left hd)
  exact natRepr_injective (String.ext (List.append_cancel_right h1))

theorem blockInput_data_inj {i t n : Nat} {p : String} {d d' : BlockData}
    (h : blockInput i p t d n = blockInput i p t d' n) : d = d' := by
  have hd := congrArg String.data h
  simp only [blockInput, String.data_append, List.append_assoc] at hd
  have h1 := List.append_cancel_left (List.append_cancel_left (List.append_cancel_left hd))
  exact jsonStringifyData_injective (String.ext (List.append_cancel_right h1))

theorem blockInput_nonce_inj {i t n n' : Nat} {p : String} {d : BlockData}
    (h : blockInput i p t d n = blockInput i p t d n') : n = n' := by
  have hd := congrArg String.data h
  simp only [blockInput, String.data_append, List.append_assoc] at hd
  have h1 := List.append_cancel_left
    (List.append_cancel_left (List.append_cancel_left (List.append_cancel_left hd)))
  exact natRepr_injective (String.ext h1)

/-! ### Validation as a chain of pairwise checks -/

/-- The pairwise condition `isChainValid` checks for consecutive blocks:
linkage, then hash reproducibility. -/
def pairOkP (H : String → String) (a b : Block) : Prop :=
  b.previousHash = a.hash ∧ H (recomputeInput b) = b.hash

theorem validFrom_cons_iff (H : String → String) (prev cur : Block) (rest : List Block) :
    validFrom H prev (cur :: rest) = true ↔
      pairOkP H prev cur ∧ validFrom H cur rest = true := by
  by_cases h1 : cur.previousHash = prev.hash <;>
    by_cases h2 : H (recomputeInput cur) = cur.hash <;>
      simp [validFrom, pairOkP, h1, h2]

theorem validFrom_iff_chain' (H : String → String) :
    ∀ (rest : List Block) (prev : Block),
      validFrom H prev rest = true ↔ List.Chain' (pairOkP H) (prev :: rest) := by
  intro rest
  induction rest with
  | nil => intro prev; simp [validFrom]
  | cons cur rest ih =>
    intro prev
    rw [validFrom_cons_iff, List.chain'_cons, ih]

/-- `isChainValid` accepts exactly the chains whose consecutive pairs all
satisfy linkage and hash reproducibility. -/
theorem isChainValid_iff_chain' (H : String → String) (c : List Block) :
    isChainValid H c = true ↔ List.Chain' (pairOkP H) c := by
  cases c with
  | nil => simp [isChainValid]
  | cons b rest => simpa [isChainValid] using validFrom_iff_chain' H rest b

/-! ### Properties of the mining function -/

theorem createBlock_index (H : String → String) (len t : Nat) (d : BlockData) (p : String)
    (hex : ∃ n, powOkB H len p t d n = true) : (createBlock H len t d p hex).index = len := rfl

theorem createBlock_timestamp (H : String → String) (len t : Nat) (d : BlockData) (p : String)
    (hex : ∃ n, powOkB H len p t d n = true) :
    (createBlock H len t d p hex).timestamp = t := rfl

theorem createBlock_data (H : String → String) (len t : Nat) (d : BlockData) (p : String)
    (hex : ∃ n, powOkB H len p t d n = true) : (createBlock H len t d p hex).data = d := rfl

theorem createBlock_previousHash (H : String → String) (len t : Nat) (d : BlockData)
    (p : String) (hex : ∃ n, powOkB H len p t d n = true) :
    (createBlock H len t d p hex).previousHash = p := rfl

/-- The hash stored in a mined block is the hash of its own stored fields:
mining produces reproducible hashes. -/
theorem createBlock_recompute (H : String → String) (len t : Nat) (d : BlockData) (p : String)
    (hex : ∃ n, powOkB H len p t d n = true) :
    H (recomputeInput (createBlock H len t d p hex)) = (createBlock H len t d p hex).hash := rfl

/-- The mined nonce satisfies the difficulty predicate. -/
theorem createBlock_pow (H : String → String) (len t : Nat) (d : BlockData) (p : String)
    (hex : ∃ n, powOkB H len p t d n = true) :
    powOkB H len p t d (createBlock H len t d p hex).nonce = true :=
  Nat.find_spec hex

/-- No nonce below the mined one satisfies the difficulty predicate: the
linear search from 0 returns the least solution. -/
theorem createBlock_nonce_min (H : String → String) (len t : Nat) (d : BlockData) (p : String)
    (hex : ∃ n, powOkB H len p t d n = true) {m : Nat}
    (hlt : m < (createBlock H len t d p hex).nonce) : powOkB H len p t d m = false := by
  simpa using Nat.find_min hex hlt

/-! ### Concrete evaluations under the toy hash functions -/

theorem createBlock_Hc (len t : Nat) (d : BlockData) (p : String)
    (hex : ∃ n, powOkB Hc len p t d n = true) :
    createBlock Hc len t d p hex =
      { index := len, timestamp := t, data := d, previousHash := p,
        hash := "00", nonce := 0 } := by
  have h0 : Nat.find hex = 0 := (Nat.find_eq_zero hex).mpr rfl
  simp [createBlock, h0, Hc]

theorem take_two_of_append00 (s : String) : ("00" ++ s).take 2 = "00" := by
  apply String.ext
  simp [String.data_take, String.data_append]

theorem powOkB_Hip (len t n : Nat) (p : String) (d : BlockData) :
    powOkB Hip len p t d n = true := by
  simp only [powOkB, Hip, difficulty, powTarget, beq_iff_eq]
  exact (take_two_of_append00 _).trans (by decide)

theorem createBlock_Hip (len t : Nat) (d : BlockData) (p : String)
    (hex : ∃ n, powOkB Hip len p t d n = true) :
    createBlock Hip len t d p hex =
      { index := len, timestamp := t, data := d, previousHash := p,
        hash := "00" ++ blockInput len p t d 0, nonce := 0 } := by
  have h0 : Nat.find hex = 0 := (Nat.find_eq_zero hex).mpr (powOkB_Hip len t 0 p d)
  simp [createBlock, h0, Hip]

/-! ### Characterization of the vote route -/

theorem castVote_closed (H : String → String) (hm : MiningTerminates H) (s : ServerState)
    (email cid : String) (td tb : Nat) (h : s.votingActive = false) :
    castVote H hm s email cid td tb = some (s, Except.error VoteError.PollClosedError) := by
  simp [castVote, h]

theorem castVote_dup (H : String → String) (hm : MiningTerminates H) (s : ServerState)
    (email cid : String) (td tb : Nat) (hA : s.votingActive = true)
    (hdup : hasVotedB s.chain (anonymize H email) = true) :
    castVote H hm s email cid td tb = some (s, Except.error VoteError.DuplicateVoteError) := by
  simp [castVote, hA, hdup]

theorem castVote_crash (H : String → String) (hm : MiningTerminates H) (s : ServerState)
    (email cid : String) (td tb : Nat) (hA : s.votingActive = true)
    (hdup : hasVotedB s.chain (anonymize H email) = false)
    (hlast : s.chain.getLast? = none) :
    castVote H hm s email cid td tb = none := by
  simp [castVote, hA, hdup, hlast]

theorem castVote_ok (H : String → String) (hm : MiningTerminates H) (s : ServerState)
    (email cid : String) (td tb : Nat) (prev : Block) (hA : s.votingActive = true)
    (hdup : hasVotedB s.chain (anonymize H email) = false)
    (hlast : s.chain.getLast? = some prev) :
    castVote H hm s email cid td tb =
      some ({ chain := s.chain ++
                [createBlock H s.chain.length tb
                  { voterId := anonymize H email, candidateId := cid, timestamp := some td }
                  prev.hash
                  (hm s.chain.length prev.hash tb
                    { voterId := anonymize H email, candidateId := cid, timestamp := some td })]
              candidates := s.candidates.map fun c =>
                if c.id == cid then { c with voteCount := c.voteCount + 1 } else c
              votingActive := s.votingActive },
        Except.ok (createBlock H s.chain.length tb
          { voterId := anonymize H email, candidateId := cid, timestamp := some td }
          prev.hash
          (hm s.chain.length prev.hash tb
            { voterId := anonymize H email, candidateId := cid, timestamp := some td }))) := by
  simp [castVote, hA, hdup, hlast]

/-- C1: every chain the Ledger Engine itself builds — genesis at startup
followed by any sequence of successful mine-and-append vote operations
(toggles and candidate edits allowed in between) — satisfies `validate`:
at every position `i ≥ 1` the block links to its predecessor's hash and
its stored hash equals the recomputed hash of its own fields. -/
theorem C1_engine_chains_validate (H : String → String) (hm : MiningTerminates H)
    (s : ServerState) (h : Reachable H hm s) : isChainValid H s.chain = true := by
  rw [isChainValid_iff_chain']
  induction h with
  | init t => exact List.chain'_singleton _
  | toggle h ih => simpa [toggleVoting] using ih
  | addCand c h ih =>
    unfold addCandidate
    split <;> simpa using ih
  | removeCand id h ih => simpa [removeCandidate] using ih
  | vote email cid td tb h heq ih =>
    rename_i s s' r
    by_cases hA : s.votingActive = false
    · rw [castVote_closed H hm s email cid td tb hA] at heq
      simp only [Option.some.injEq, Prod.mk.injEq] at heq
      rw [← heq.1]
      exact ih
    · have hA' : s.votingActive = true := by
        cases hx : s.votingActive
        · exact absurd hx hA
        · rfl
      by_cases hdup : hasVotedB s.chain (anonymize H email) = true
      · rw [castVote_dup H hm s email cid td tb hA' hdup] at heq
        simp only [Option.some.injEq, Prod.mk.injEq] at heq
        rw [← heq.1]
        exact ih
      · have hdup' : hasVotedB s.chain (anonymize H email) = false := by
          cases hx : hasVotedB s.chain (anonymize H email)
          · rfl
          · exact absurd hx hdup
        cases hgl : s.chain.getLast? with
        | none =>
          rw [castVote_crash H hm s email cid td tb hA' hdup' hgl] at heq
          exact absurd heq (by simp)
        | some prev =>
          rw [castVote_ok H hm s email cid td tb prev hA' hdup' hgl] at heq
          simp only [Option.some.injEq, Prod.mk.injEq] at heq
          rw [← heq.1]
          refine List.chain'_append.mpr ⟨ih, List.chain'_singleton _, ?_⟩
          intro x hx y hy
          rw [hgl] at hx
          simp only [Option.mem_def, Option.some.injEq] at hx
          simp only [List.head?_cons, Option.mem_def, Option.some.injEq] at hy
          subst hx
          subst hy
          exact ⟨createBlock_previousHash H s.chain.length tb _ prev.hash _,
            createBlock_recompute H s.chain.length tb _ prev.hash _⟩

/-- C1 witness: a concrete engine run (startup, toggle, one successful
vote) under the toy hash produces a chain accepted by `validate`. -/
theorem C1_engine_chains_validate_witness :
    ∃ (s2 : ServerState) (r : Except VoteError Block),
      castVote Hc hmC (toggleVoting (serverInit Hc hmC 0)) "a@x.edu" "c1" 1 2 = some (s2, r) ∧
      isChainValid Hc s2.chain = true := by
  refine ⟨_, _,
    castVote_ok Hc hmC (toggleVoting (serverInit Hc hmC 0)) "a@x.edu" "c1" 1 2
      (createBlock Hc 0 0 serverGenesisData "0" (hmC 0 "0" 0 serverGenesisData)) rfl rfl rfl,
    C1_engine_chains_validate Hc hmC _
      (Reachable.vote "a@x.edu" "c1" 1 2 (Reachable.toggle (Reachable.init 0))
        (castVote_ok Hc hmC (toggleVoting (serverInit Hc hmC 0)) "a@x.edu" "c1" 1 2
          (createBlock Hc 0 0 serverGenesisData "0" (hmC 0 "0" 0 serverGenesisData))
          rfl rfl rfl))⟩

/-- C10: `validate` returns true for every chain with fewer than two
blocks, whatever the single block contains — genesis payload, stored hash
and proof-of-work are never examined. -/
theorem C10_short_chain_valid (H : String → String) (c : List Block)
    (h : c.length < 2) : isChainValid H c = true := by
  cases c with
  | nil => rfl
  | cons b rest =>
    cases rest with
    | nil => rfl
    | cons b2 rest2 =>
      simp only [List.length_cons] at h
      omega

/-- C10 witness: a single block with garbage hash, wrong index and no
proof-of-work still validates. -/
theorem C10_short_chain_valid_witness :
    isChainValid Hc
      [{ index := 7, timestamp := 3, data := serverGenesisData,
         previousHash := "zz", hash := "nonsense", nonce := 5 }] = true :=
  C10_short_chain_valid Hc _ (by decide)

/-- C3: `validate` accepts a chain exactly when every consecutive pair
(`i`, `i+1`) links (`previousHash` equals the predecessor's `hash`) and
re-hashes correctly; a failing pair makes the result false irrespective of
the blocks after it (short-circuit); and the proof-of-work leading-zero
condition is never re-checked — a chain with reproducible hashes lacking
leading zeros still validates. -/
theorem C3_validate_pairwise (H : String → String) :
    (∀ c : List Block, isChainValid H c = true ↔
      ∀ (i : Nat) (hi : i + 1 < c.length),
        (c.get ⟨i + 1, hi⟩).previousHash = (c.get ⟨i, Nat.lt_of_succ_lt hi⟩).hash ∧
        H (recomputeInput (c.get ⟨i + 1, hi⟩)) = (c.get ⟨i + 1, hi⟩).hash)
    ∧ (∀ (prev cur : Block) (rest : List Block),
        cur.previousHash ≠ prev.hash ∨ H (recomputeInput cur) ≠ cur.hash →
        validFrom H prev (cur :: rest) = false)
    ∧ (∃ c : List Block, isChainValid Hid c = true ∧
        ∃ b ∈ c, (b.hash.take difficulty) ≠ powTarget) := by
  refine ⟨?_, ?_, ?_⟩
  · intro c
    rw [isChainValid_iff_chain', List.chain'_iff_get]
    constructor
    · intro hc i hi
      exact hc i (by omega)
    · intro hp i hi
      exact hp i (by omega)
  · intro prev cur rest h
    rcases h with h | h
    · simp [validFrom, h]
    · by_cases h1 : cur.previousHash = prev.hash <;> simp [validFrom, h1, h]
  · exact ⟨[⟨0, 0, serverGenesisData, "0", "X", 0⟩,
      ⟨1, 0, serverGenesisData, "X", blockInput 1 "X" 0 serverGenesisData 0, 0⟩],
      by decide, ⟨0, 0, serverGenesisData, "0", "X", 0⟩, List.mem_cons_self _ _, by decide⟩

/-- C3 witness: a broken link at the head makes `validate`'s loop return
false whatever blocks follow. -/
theorem C3_validate_pairwise_witness :
    validFrom Hc
      { index := 0, timestamp := 0, data := serverGenesisData,
        previousHash := "0", hash := "AA", nonce := 0 }
      [{ index := 1, timestamp := 0, data := serverGenesisData,
         previousHash := "BB", hash := "00", nonce := 0 },
       { index := 2, timestamp := 0, data := serverGenesisData,
         previousHash := "00", hash := "00", nonce := 0 }] = false :=
  (C3_validate_pairwise Hc).2.1 _ _ _ (Or.inl (by decide))

/-- C4: a mined block's hash starts with `difficulty = 2` zero hex
characters; its hash is the hash of its own stored fields at its stored
nonce; its nonce satisfies the difficulty predicate and no smaller nonce
does (linear search from 0); and its index and timestamp are the values
captured at call entry. -/
theorem C4_mining_result (H : String → String) (len t : Nat) (d : BlockData) (p : String)
    (hex : ∃ n, powOkB H len p t d n = true) :
    ((createBlock H len t d p hex).hash.take difficulty = powTarget)
    ∧ (createBlock H len t d p hex).hash =
        H (blockInput len p t d (createBlock H len t d p hex).nonce)
    ∧ powOkB H len p t d (createBlock H len t d p hex).nonce = true
    ∧ (∀ m < (createBlock H len t d p hex).nonce, powOkB H len p t d m = false)
    ∧ (createBlock H len t d p hex).index = len
    ∧ (createBlock H len t d p hex).timestamp = t := by
  refine ⟨?_, rfl, createBlock_pow H len t d p hex,
    fun m hm => createBlock_nonce_min H len t d p hex hm, rfl, rfl⟩
  have hp := createBlock_pow H len t d p hex
  simp only [powOkB, beq_iff_eq] at hp
  exact hp

/-- C4 witness: mining under the toy hash at a concrete input. -/
theorem C4_mining_result_witness :
    ((createBlock Hc 0 5 serverGenesisData "0" ⟨0, rfl⟩).hash.take difficulty = powTarget)
    ∧ (createBlock Hc 0 5 serverGenesisData "0" ⟨0, rfl⟩).hash =
        Hc (blockInput 0 "0" 5 serverGenesisData
          (createBlock Hc 0 5 serverGenesisData "0" ⟨0, rfl⟩).nonce)
    ∧ powOkB Hc 0 "0" 5 serverGenesisData
        (createBlock Hc 0 5 serverGenesisData "0" ⟨0, rfl⟩).nonce = true
    ∧ (∀ m < (createBlock Hc 0 5 serverGenesisData "0" ⟨0, rfl⟩).nonce,
        powOkB Hc 0 "0" 5 serverGenesisData m = false)
    ∧ (createBlock Hc 0 5 serverGenesisData "0" ⟨0, rfl⟩).index = 0
    ∧ (createBlock Hc 0 5 serverGenesisData "0" ⟨0, rfl⟩).timestamp = 5 :=
  C4_mining_result Hc 0 5 serverGenesisData "0" ⟨0, rfl⟩

/-- C9: whenever some nonce satisfies the difficulty predicate — the
distributional assumption made for SHA-256 — the unbounded search loop
terminates and returns a satisfying nonce; and no unconditional
termination bound exists: there are hash functions under which no nonce
ever satisfies the predicate, so the loop would never exit. -/
theorem C9_mining_termination :
    (∀ (H : String → String) (len t : Nat) (d : BlockData) (p : String)
       (hex : ∃ n, powOkB H len p t d n = true),
       powOkB H len p t d (createBlock H len t d p hex).nonce = true)
    ∧ (∀ (len t : Nat) (d : BlockData) (p : String),
       ∃ H' : String → String, ∀ n : Nat, powOkB H' len p t d n = false) := by
  constructor
  · intro H len t d p hex
    exact createBlock_pow H len t d p hex
  · intro len t d p
    exact ⟨fun _ => "x", fun n => rfl⟩

/-- C9 witness: under the toy hash the loop exits at a satisfying nonce
for a concrete input. -/
theorem C9_mining_termination_witness :
    powOkB Hc 3 "ph" 7 serverGenesisData
      (createBlock Hc 3 7 serverGenesisData "ph" ⟨0, rfl⟩).nonce = true :=
  C9_mining_termination.1 Hc 3 7 serverGenesisData "ph" ⟨0, rfl⟩

/-- C5: the vote route checks its preconditions in order — a closed poll
fails with `PollClosedError` regardless of any duplicate, an already-seen
voter digest fails with `DuplicateVoteError`, both failures leave the
chain, the candidate registry and the tallies untouched (the returned
state is the input state); on success it mines, appends the mined block,
increments the matching candidate's tally and returns the block. -/
theorem C5_castVote_order (H : String → String) (hm : MiningTerminates H) (s : ServerState)
    (email cid : String) (td tb : Nat) :
    (s.votingActive = false →
      castVote H hm s email cid td tb = some (s, Except.error VoteError.PollClosedError))
    ∧ (s.votingActive = true → hasVotedB s.chain (anonymize H email) = true →
      castVote H hm s email cid td tb = some (s, Except.error VoteError.DuplicateVoteError))
    ∧ (∀ prev : Block, s.votingActive = true →
      hasVotedB s.chain (anonymize H email) = false →
      s.chain.getLast? = some prev →
      castVote H hm s email cid td tb =
        some ({ chain := s.chain ++
                  [createBlock H s.chain.length tb
                    { voterId := anonymize H email, candidateId := cid, timestamp := some td }
                    prev.hash
                    (hm s.chain.length prev.hash tb
                      { voterId := anonymize H email, candidateId := cid, timestamp := some td })]
                candidates := s.candidates.map fun c =>
                  if c.id == cid then { c with voteCount := c.voteCount + 1 } else c
                votingActive := s.votingActive },
          Except.ok (createBlock H s.chain.length tb
            { voterId := anonymize H email, candidateId := cid, timestamp := some td }
            prev.hash
            (hm s.chain.length prev.hash tb
              { voterId := anonymize H email, candidateId := cid, timestamp := some td })))) :=
  ⟨castVote_closed H hm s email cid td tb,
   castVote_dup H hm s email cid td tb,
   fun prev hA hdup hlast => castVote_ok H hm s email cid td tb prev hA hdup hlast⟩

/-- C5 witness: the three branches at concrete states — a closed poll
that already contains the voter's digest still reports `PollClosedError`
and leaves the state unchanged; an open poll with the digest present
reports `DuplicateVoteError` unchanged; a fresh open poll succeeds. -/
theorem C5_castVote_order_witness :
    (castVote Hc hmC
        ⟨[⟨0, 0, serverGenesisData, "0", "00", 0⟩, ⟨1, 2, ⟨"00", "c1", some 1⟩, "00", "00", 0⟩],
          [], false⟩ "a@x.edu" "c1" 1 2 =
      some (⟨[⟨0, 0, serverGenesisData, "0", "00", 0⟩, ⟨1, 2, ⟨"00", "c1", some 1⟩, "00", "00", 0⟩],
          [], false⟩, Except.error VoteError.PollClosedError))
    ∧ (castVote Hc hmC
        ⟨[⟨0, 0, serverGenesisData, "0", "00", 0⟩, ⟨1, 2, ⟨"00", "c1", some 1⟩, "00", "00", 0⟩],
          [], true⟩ "a@x.edu" "c1" 1 2 =
      some (⟨[⟨0, 0, serverGenesisData, "0", "00", 0⟩, ⟨1, 2, ⟨"00", "c1", some 1⟩, "00", "00", 0⟩],
          [], true⟩, Except.error VoteError.DuplicateVoteError))
    ∧ (∃ (s2 : ServerState) (b : Block),
        castVote Hc hmC
          ⟨[⟨0, 0, serverGenesisData, "0", "00", 0⟩], [⟨"c1", "n", "d", "m", 0⟩], true⟩
          "a@x.edu" "c1" 1 2 = some (s2, Except.ok b)) :=
  ⟨(C5_castVote_order Hc hmC _ "a@x.edu" "c1" 1 2).1 rfl,
   (C5_castVote_order Hc hmC _ "a@x.edu" "c1" 1 2).2.1 rfl rfl,
   ⟨_, _, (C5_castVote_order Hc hmC _ "a@x.edu" "c1" 1 2).2.2
      ⟨0, 0, serverGenesisData, "0", "00", 0⟩ rfl rfl rfl⟩⟩

/-- C6 counterexample: `BlockchainService.addVote` hashes the raw email
without normalizing, so two raw identities equal up to letter case are
stored under different digests (using the injective toy hash): the claim
that every digest-computing code path normalizes first is false. -/
theorem C6_counterexample :
    ∃ (c1 : List Block) (b1 : Block) (c2 : List Block) (b2 : Block),
      addVote Hip hmIp [⟨0, 0, serverGenesisData, "0", "h0", 0⟩] "Alice@X.edu" "c1" 1 2 =
        some (c1, b1) ∧
      addVote Hip hmIp [⟨0, 0, serverGenesisData, "0", "h0", 0⟩] "alice@x.edu" "c1" 1 2 =
        some (c2, b2) ∧
      trimStr (toLowerStr "Alice@X.edu") = trimStr (toLowerStr "alice@x.edu") ∧
      b1.data.voterId ≠ b2.data.voterId := by
  refine ⟨_, _, _, _, rfl, rfl, by decide, by decide⟩

/-- C6 amended: the server's vote route and its duplicate check both use
the normalize-then-hash digest (`anonymize`), so raw identities equal up
to case and surrounding whitespace produce the same digest there and the
successfully stored block carries exactly that digest; but
`BlockchainService.addVote` hashes the raw email unnormalized, and its
digest can differ from the normalized one. -/
theorem C6_amended (H : String → String) :
    (∀ s1 s2 : String, trimStr (toLowerStr s1) = trimStr (toLowerStr s2) →
      anonymize H s1 = anonymize H s2)
    ∧ (∀ (hm : MiningTerminates H) (s : ServerState) (email cid : String) (td tb : Nat)
        (s' : ServerState) (b : Block),
        castVote H hm s email cid td tb = some (s', Except.ok b) →
        b.data.voterId = anonymize H email)
    ∧ (∀ email : String, addVoteDigest H email = H email)
    ∧ (∃ email : String, addVoteDigest Hid email ≠ anonymize Hid email) := by
  refine ⟨fun s1 s2 h => congrArg H h, ?_, fun _ => rfl, ⟨"A", by decide⟩⟩
  intro hm s email cid td tb s' b heq
  by_cases hA : s.votingActive = false
  · rw [castVote_closed H hm s email cid td tb hA] at heq
    simp at heq
  · have hA' : s.votingActive = true := by
      cases hx : s.votingActive
      · exact absurd hx hA
      · rfl
    by_cases hdup : hasVotedB s.chain (anonymize H email) = true
    · rw [castVote_dup H hm s email cid td tb hA' hdup] at heq
      simp at heq
    · have hdup' : hasVotedB s.chain (anonymize H email) = false := by
        cases hx : hasVotedB s.chain (anonymize H email)
        · rfl
        · exact absurd hx hdup
      cases hgl : s.chain.getLast? with
      | none =>
        rw [castVote_crash H hm s email cid td tb hA' hdup' hgl] at heq
        exact absurd heq (by simp)
      | some prev =>
        rw [castVote_ok H hm s email cid td tb prev hA' hdup' hgl] at heq
        simp only [Option.some.injEq, Prod.mk.injEq, Except.ok.injEq] at heq
        rw [← heq.2]
        rfl

/-- C6 amended witness: concrete normalization-equal identities get equal
digests on the server path, and a concrete successful vote stores that
digest. -/
theorem C6_amended_witness :
    anonymize Hip " Bob@X.edu" = anonymize Hip "bob@x.EDU " ∧
    (∀ (s' : ServerState) (b : Block),
      castVote Hip hmIp ⟨[⟨0, 0, serverGenesisData, "0", "h0", 0⟩], [], true⟩
        "Bob@X.edu" "c1" 1 2 = some (s', Except.ok b) →
      b.data.voterId = anonymize Hip "Bob@X.edu") :=
  ⟨(C6_amended Hip).1 " Bob@X.edu" "bob@x.EDU " (by decide),
   fun s' b heq =>
     (C6_amended Hip).2.1 hmIp ⟨[⟨0, 0, serverGenesisData, "0", "h0", 0⟩], [], true⟩
       "Bob@X.edu" "c1" 1 2 s' b heq⟩

/-- C7 counterexample: calling the service's `createGenesisBlock` again on
the non-empty chain produced by a first call appends a second block with
the GENESIS payload (at index 1): re-initialization is neither a no-op
nor a reset. -/
theorem C7_counterexample :
    (createGenesisBlock Hc hmC (createGenesisBlock Hc hmC [] 0).1 1).1.length = 2 ∧
    (createGenesisBlock Hc hmC [] 0).1.length = 1 ∧
    (∃ b : Block,
      (createGenesisBlock Hc hmC (createGenesisBlock Hc hmC [] 0).1 1).1.getLast? = some b ∧
      b.data.voterId = "GENESIS" ∧ b.data.candidateId = "GENESIS" ∧ b.index = 1) := by
  refine ⟨rfl, rfl, _, List.getLast?_concat _, rfl, rfl, rfl⟩

/-- C7 amended: server startup creates exactly one genesis block with the
sentinel payload, `previousHash = "0"` and index 0, and the service's
first call does the same (its payload adds a timestamp field); but
`createGenesisBlock` carries no guard: applied to any current chain it
appends one more GENESIS-payload block at index `chain.length`. -/
theorem C7_amended (H : String → String) (hm : MiningTerminates H) (t : Nat) :
    (∃ b : Block, (serverInit H hm t).chain = [b] ∧ b.data = serverGenesisData ∧
      b.previousHash = "0" ∧ b.index = 0)
    ∧ (∀ chain : List Block,
        (createGenesisBlock H hm chain t).1 = chain ++ [(createGenesisBlock H hm chain t).2]
        ∧ (createGenesisBlock H hm chain t).2.data.voterId = "GENESIS"
        ∧ (createGenesisBlock H hm chain t).2.data.candidateId = "GENESIS"
        ∧ (createGenesisBlock H hm chain t).2.previousHash = "0"
        ∧ (createGenesisBlock H hm chain t).2.index = chain.length) :=
  ⟨⟨createBlock H 0 t serverGenesisData "0" (hm 0 "0" t serverGenesisData),
      rfl, rfl, rfl, rfl⟩,
   fun chain => ⟨rfl, rfl, rfl, rfl, rfl⟩⟩

/-- C7 amended witness: instantiation at the toy hash and a concrete
timestamp. -/
theorem C7_amended_witness :
    (∃ b : Block, (serverInit Hc hmC 5).chain = [b] ∧ b.data = serverGenesisData ∧
      b.previousHash = "0" ∧ b.index = 0)
    ∧ (∀ chain : List Block,
        (createGenesisBlock Hc hmC chain 5).1 = chain ++ [(createGenesisBlock Hc hmC chain 5).2]
        ∧ (createGenesisBlock Hc hmC chain 5).2.data.voterId = "GENESIS"
        ∧ (createGenesisBlock Hc hmC chain 5).2.data.candidateId = "GENESIS"
        ∧ (createGenesisBlock Hc hmC chain 5).2.previousHash = "0"
        ∧ (createGenesisBlock Hc hmC chain 5).2.index = chain.length) :=
  C7_amended Hc hmC 5

/-- Appending one block to a non-empty chain adds its vote (if matching)
to the replayed tally. -/
theorem tallyOf_append_singleton (chain : List Block) (b : Block) (cid : String)
    (h : chain ≠ []) :
    tallyOf (chain ++ [b]) cid =
      tallyOf chain cid + (if b.data.candidateId == cid then 1 else 0) := by
  unfold tallyOf
  rw [List.drop_append_of_le_length (by cases chain with
    | nil => exact absurd rfl h
    | cons x xs => simp)]
  rw [List.filter_append, List.length_append]
  congr 1
  cases hx : b.data.candidateId == cid <;> simp [List.filter, hx]

/-- C8 amended: the cached `voteCount` of every registered candidate
agrees with the tally replayed from the chain after any sequence of
successful votes, candidate removals, and candidate additions, provided
each candidate is added only when the chain holds no votes for its id
(the code accepts votes for unregistered ids and re-additions after
removal, which desynchronize the cache). -/
theorem C8_amended (H : String → String) (hm : MiningTerminates H) :
    (∀ (s : ServerState) (email cid : String) (td tb : Nat) (s' : ServerState) (b : Block),
        TallyInv s → castVote H hm s email cid td tb = some (s', Except.ok b) → TallyInv s')
    ∧ (∀ (s : ServerState) (id : String), TallyInv s → TallyInv (removeCandidate s id))
    ∧ (∀ (s : ServerState) (c : CandidateInput), TallyInv s →
        tallyOf s.chain c.id = 0 → TallyInv (addCandidate s c).1) := by
  refine ⟨?_, ?_, ?_⟩
  · intro s email cid td tb s' b hInv heq
    by_cases hA : s.votingActive = false
    · rw [castVote_closed H hm s email cid td tb hA] at heq
      simp at heq
    · have hA' : s.votingActive = true := by
        cases hx : s.votingActive
        · exact absurd hx hA
        · rfl
      by_cases hdup : hasVotedB s.chain (anonymize H email) = true
      · rw [castVote_dup H hm s email cid td tb hA' hdup] at heq
        simp at heq
      · have hdup' : hasVotedB s.chain (anonymize H email) = false := by
          cases hx : hasVotedB s.chain (anonymize H email)
          · rfl
          · exact absurd hx hdup
        cases hgl : s.chain.getLast? with
        | none =>
          rw [castVote_crash H hm s email cid td tb hA' hdup' hgl] at heq
          exact absurd heq (by simp)
        | some prev =>
          rw [castVote_ok H hm s email cid td tb prev hA' hdup' hgl] at heq
          simp only [Option.some.injEq, Prod.mk.injEq, Except.ok.injEq] at heq
          obtain ⟨hs, hb⟩ := heq
          rw [← hs]
          intro c' hc'
          simp only [List.mem_map] at hc'
          obtain ⟨c0, hc0, hmap⟩ := hc'
          have hchain_ne : s.chain ≠ [] := by
            intro hnil
            rw [hnil] at hgl
            exact absurd hgl (by simp)
          by_cases hid : (c0.id == cid) = true
          · rw [if_pos hid] at hmap
            rw [← hmap]
            show c0.voteCount + 1 = tallyOf (s.chain ++ [_]) c0.id
            rw [tallyOf_append_singleton _ _ _ hchain_ne]
            have hcid : c0.id = cid := by
              exact beq_iff_eq.mp hid
            rw [createBlock_data]
            show c0.voteCount + 1 = tallyOf s.chain c0.id + (if cid == c0.id then 1 else 0)
            rw [hcid, if_pos (beq_self_eq_true cid), ← hcid, ← hInv c0 hc0]
          · rw [if_neg hid] at hmap
            rw [← hmap]
            show c0.voteCount = tallyOf (s.chain ++ [_]) c0.id
            rw [tallyOf_append_singleton _ _ _ hchain_ne, createBlock_data]
            show c0.voteCount = tallyOf s.chain c0.id + (if cid == c0.id then 1 else 0)
            have : (cid == c0.id) = false := by
              cases hcc : cid == c0.id
              · rfl
              · exact absurd (beq_iff_eq.mpr (beq_iff_eq.mp hcc).symm) hid
            rw [this]
            simp [hInv c0 hc0]
  · intro s id hInv c hc
    exact hInv c (List.mem_of_mem_filter hc)
  · intro s c hInv h0
    unfold addCandidate
    split
    · exact hInv
    · intro c' hc'
      rcases List.mem_append.mp hc' with hmem | hmem
      · exact hInv c' hmem
      · rw [List.mem_singleton.mp hmem]
        exact h0.symm

/-- C8 counterexample: a successful vote for the not-yet-registered id
`"c1"` followed by registering `"c1"` yields a candidate whose cached
`voteCount` (0) disagrees with the chain replay (1): the claimed
invariant fails after this add/vote sequence. -/
theorem C8_counterexample :
    ∃ (s1 : ServerState) (b : Block),
      castVote Hc hmC ⟨[⟨0, 0, serverGenesisData, "0", "00", 0⟩], [], true⟩
        "alice@x.edu" "c1" 1 2 = some (s1, Except.ok b) ∧
      ¬ TallyInv (addCandidate s1 ⟨"c1", "n", "d", "m"⟩).1 := by
  refine ⟨_, _, castVote_ok Hc hmC ⟨[⟨0, 0, serverGenesisData, "0", "00", 0⟩], [], true⟩
    "alice@x.edu" "c1" 1 2 ⟨0, 0, serverGenesisData, "0", "00", 0⟩ rfl rfl rfl, ?_⟩
  intro hInv
  have h := hInv ⟨"c1", "n", "d", "m", 0⟩ (by decide)
  simp only [createBlock_Hc] at h
  exact absurd h (by decide)

/-- C8 amended witness: the three preserved steps at a concrete state
whose cache agrees with the chain. -/
theorem C8_amended_witness :
    (∃ (s' : ServerState) (b : Block),
      castVote Hc hmC ⟨[⟨0, 0, serverGenesisData, "0", "00", 0⟩],
          [⟨"c1", "n", "d", "m", 0⟩], true⟩ "a@x.edu" "c1" 1 2 = some (s', Except.ok b) ∧
      TallyInv s')
    ∧ TallyInv (removeCandidate ⟨[⟨0, 0, serverGenesisData, "0", "00", 0⟩],
        [⟨"c1", "n", "d", "m", 0⟩], true⟩ "c1")
    ∧ TallyInv (addCandidate ⟨[⟨0, 0, serverGenesisData, "0", "00", 0⟩],
        [⟨"c1", "n", "d", "m", 0⟩], true⟩ ⟨"c2", "n", "d", "m"⟩).1 :=
  ⟨⟨_, _, castVote_ok Hc hmC ⟨[⟨0, 0, serverGenesisData, "0", "00", 0⟩],
        [⟨"c1", "n", "d", "m", 0⟩], true⟩ "a@x.edu" "c1" 1 2
        ⟨0, 0, serverGenesisData, "0", "00", 0⟩ rfl rfl rfl,
    (C8_amended Hc hmC).1 ⟨[⟨0, 0, serverGenesisData, "0", "00", 0⟩],
        [⟨"c1", "n", "d", "m", 0⟩], true⟩ "a@x.edu" "c1" 1 2 _ _ (by decide)
      (castVote_ok Hc hmC ⟨[⟨0, 0, serverGenesisData, "0", "00", 0⟩],
        [⟨"c1", "n", "d", "m", 0⟩], true⟩ "a@x.edu" "c1" 1 2
        ⟨0, 0, serverGenesisData, "0", "00", 0⟩ rfl rfl rfl)⟩,
   (C8_amended Hc hmC).2.1 ⟨[⟨0, 0, serverGenesisData, "0", "00", 0⟩],
        [⟨"c1", "n", "d", "m", 0⟩], true⟩ "c1" (by decide),
   (C8_amended Hc hmC).2.2 ⟨[⟨0, 0, serverGenesisData, "0", "00", 0⟩],
        [⟨"c1", "n", "d", "m", 0⟩], true⟩ ⟨"c2", "n", "d", "m"⟩ (by decide) (by decide)⟩

/-- Replacing block `j + 1` with a block failing the pairwise check makes
validation reject the chain. -/
theorem tamper_invalid (H : String → String) (c : List Block) (j : Nat)
    (hj : j + 1 < c.length) (b' : Block)
    (hbad : ¬ pairOkP H (c.get ⟨j, Nat.lt_of_succ_lt hj⟩) b') :
    isChainValid H (c.set (j + 1) b') = false := by
  by_contra hcon
  have htrue : isChainValid H (c.set (j + 1) b') = true := by
    cases hx : isChainValid H (c.set (j + 1) b')
    · exact absurd hx hcon
    · rfl
  rw [isChainValid_iff_chain', List.chain'_iff_get] at htrue
  have hp := htrue j (by simp only [List.length_set]; omega)
  simp only [List.get_eq_getElem, List.getElem_set] at hp
  simp only [if_true] at hp
  rw [if_neg (by omega : ¬ j + 1 = j)] at hp
  simp only [List.get_eq_getElem] at hbad
  exact hbad hp

/-- C2: on a chain accepted by `validate`, replacing any single field of
any non-genesis block (position `j + 1`) by a different value makes
`validate` return false, provided the hash function does not collide on
the strings involved (stated as injectivity of `H`).  The `hash` and
`previousHash` cases need no hash assumption at all. -/
theorem C2_tamper_detection (H : String → String)
    (Hinj : ∀ s1 s2 : String, H s1 = H s2 → s1 = s2)
    (c : List Block) (hv : isChainValid H c = true)
    (j : Nat) (hj : j + 1 < c.length) :
    (∀ v : String, v ≠ (c.get ⟨j + 1, hj⟩).hash →
      isChainValid H (c.set (j + 1) { c.get ⟨j + 1, hj⟩ with hash := v }) = false)
    ∧ (∀ v : String, v ≠ (c.get ⟨j + 1, hj⟩).previousHash →
      isChainValid H (c.set (j + 1) { c.get ⟨j + 1, hj⟩ with previousHash := v }) = false)
    ∧ (∀ v : Nat, v ≠ (c.get ⟨j + 1, hj⟩).index →
      isChainValid H (c.set (j + 1) { c.get ⟨j + 1, hj⟩ with index := v }) = false)
    ∧ (∀ v : Nat, v ≠ (c.get ⟨j + 1, hj⟩).timestamp →
      isChainValid H (c.set (j + 1) { c.get ⟨j + 1, hj⟩ with timestamp := v }) = false)
    ∧ (∀ v : BlockData, v ≠ (c.get ⟨j + 1, hj⟩).data →
      isChainValid H (c.set (j + 1) { c.get ⟨j + 1, hj⟩ with data := v }) = false)
    ∧ (∀ v : Nat, v ≠ (c.get ⟨j + 1, hj⟩).nonce →
      isChainValid H (c.set (j + 1) { c.get ⟨j + 1, hj⟩ with nonce := v }) = false) := by
  have hchain := (isChainValid_iff_chain' H c).mp hv
  rw [List.chain'_iff_get] at hchain
  obtain ⟨hlink, hre⟩ := hchain j (by omega)
  refine ⟨?_, ?_, ?_, ?_, ?_, ?_⟩
  · intro v hne
    refine tamper_invalid H c j hj _ ?_
    rintro ⟨-, hr⟩
    exact hne (hr.symm.trans hre)
  · intro v hne
    refine tamper_invalid H c j hj _ ?_
    rintro ⟨hl, -⟩
    exact hne (hl.trans hlink.symm)
  · intro v hne
    refine tamper_invalid H c j hj _ ?_
    rintro ⟨-, hr⟩
    exact hne (blockInput_index_inj (Hinj _ _ (hr.trans hre.symm)))
  · intro v hne
    refine tamper_invalid H c j hj _ ?_
    rintro ⟨-, hr⟩
    exact hne (blockInput_timestamp_inj (Hinj _ _ (hr.trans hre.symm)))
  · intro v hne
    refine tamper_invalid H c j hj _ ?_
    rintro ⟨-, hr⟩
    exact hne (blockInput_data_inj (Hinj _ _ (hr.trans hre.symm)))
  · intro v hne
    refine tamper_invalid H c j hj _ ?_
    rintro ⟨-, hr⟩
    exact hne (blockInput_nonce_inj (Hinj _ _ (hr.trans hre.symm)))

/-- C2 witness: tampering with the payload of the second block of a
concrete valid chain (under the injective identity hash) is rejected. -/
theorem C2_tamper_detection_witness :
    isChainValid Hid
      (([⟨0, 0, serverGenesisData, "0", "X", 0⟩,
          ⟨1, 0, serverGenesisData, "X", blockInput 1 "X" 0 serverGenesisData 0, 0⟩] :
            List Block).set 1
        { ([⟨0, 0, serverGenesisData, "0", "X", 0⟩,
            ⟨1, 0, serverGenesisData, "X", blockInput 1 "X" 0 serverGenesisData 0, 0⟩] :
              List Block).get ⟨1, by decide⟩ with
          data := ⟨"EVIL", "EVIL", none⟩ }) = false :=
  (C2_tamper_detection Hid (fun _ _ h => h) _ (by decide) 0 (by decide)).2.2.2.2.1
    ⟨"EVIL", "EVIL", none⟩ (by decide)
